import Mathlib

/-!
Shallow embedding of the `create-playwright` scaffolder's core logic.

JavaScript strings are modelled as `List Char`; the filesystem and the
process environment are abstracted as explicit boolean / optional-string
parameters.  Every definition below is translated from the TypeScript
source (`src/packageManager.ts`, `src/utils.ts`, `src/generator.ts`, the
CLI entry point); the doc comment of each definition names the function
it embeds.
-/

/-- Whitespace test matching the JavaScript `\s` class / `trim` semantics
for the characters that occur in this code base (space, tab, newline,
carriage return, vertical tab, form feed). -/
def isWs (c : Char) : Bool :=
  c == ' ' || c == '\t' || c == '\n' || c == '\r' || c == '\x0b' || c == '\x0c'

/-- Embeds JavaScript `s.startsWith(pat)`: `strStartsWith s pat` is true
iff `pat` is a prefix of `s`. -/
def strStartsWith : List Char → List Char → Bool
  | _, [] => true
  | [], _ :: _ => false
  | c :: cs, p :: ps => c == p && strStartsWith cs ps

/-- Leftmost occurrence of `pat` in `s`: returns `some (pre, post)` with
`s = pre ++ pat ++ post` and `pre` shortest, `none` when `pat` does not
occur.  This is the search primitive behind the JavaScript `includes`,
`match` and `replace` calls used by the source. -/
def splitFirst (pat : List Char) : List Char → Option (List Char × List Char)
  | [] => none
  | c :: cs =>
    if strStartsWith (c :: cs) pat then some ([], (c :: cs).drop pat.length)
    else (splitFirst pat cs).map (fun pr => (c :: pr.1, pr.2))

/-- Embeds JavaScript `s.includes(pat)` (substring test). -/
def includes (s pat : List Char) : Bool :=
  (splitFirst pat s).isSome

/-- Placeholder pattern `{{key}}` built by `executeTemplate`'s
`new RegExp('\x7b\x7b' + key + '\x7d\x7d', 'g')` (the template keys used by the
generator contain no regex metacharacters, so the pattern is a literal). -/
def substPat (key : List Char) : List Char :=
  '\x7b' :: '\x7b' :: (key ++ ['\x7d', '\x7d'])

/-- Embeds JavaScript `s.replace(pattern, repl)` with a global literal
pattern: replaces every non-overlapping occurrence of `pat` left to
right.  (`$`-escapes in the replacement are not interpreted; the
generator's substitution values contain none.) -/
def substGo (pat repl : List Char) : List Char → List Char
  | [] => []
  | c :: cs =>
    if strStartsWith (c :: cs) pat then
      repl ++ substGo pat repl (cs.drop (pat.length - 1))
    else
      c :: substGo pat repl cs
termination_by s => s.length
decreasing_by
  all_goals simp [List.length_drop]
  all_goals omega

/-- Embeds the substitution loop at the top of `executeTemplate`
(`src/utils.ts`): `for (const key in args) input = input.replace(...)`. -/
def applySubsts (args : List (List Char × List Char)) (input : List Char) : List Char :=
  args.foldl (fun acc kv => substGo (substPat kv.1) kv.2 acc) input

/-- Package-manager identity, the `PackageManager` union type of
`src/types.ts` (`'npm' | 'yarn' | 'pnpm'`). -/
inductive PM
  | npm
  | yarn
  | pnpm
  deriving DecidableEq, Repr

/-- Embeds `NPM.installDevDependency` (src/packageManager.ts line 36):
returns `npm install --save-dev ${name}`. -/
def NPM.installDevDependency (name : List Char) : List Char :=
  "npm install --save-dev ".toList ++ name

/-- Embeds `NPM.ci` (src/packageManager.ts line 28). -/
def NPM.ci : List Char := "npm ci".toList

/-- Embeds `NPM.i` (src/packageManager.ts line 32). -/
def NPM.i : List Char := "npm i".toList

/-- Embeds `Yarn.installDevDependency` (src/packageManager.ts line 86):
returns `yarn add --dev ${(this.workspace && this.classic) ? '-W ' : ''}${name}`.
The `workspace` and `classic` fields computed by the `Yarn` constructor
are passed explicitly. -/
def Yarn.installDevDependency (workspace classic : Bool) (name : List Char) : List Char :=
  "yarn add --dev ".toList ++ (if workspace && classic then "-W ".toList else []) ++ name

/-- Embeds `Yarn.ci` (src/packageManager.ts line 78). -/
def Yarn.ci : List Char := "npm install -g yarn && yarn".toList

/-- Embeds `Yarn.i` (src/packageManager.ts line 82): `return this.ci()`. -/
def Yarn.i : List Char := Yarn.ci

/-- Embeds `PNPM.installDevDependency` (src/packageManager.ts line 124):
returns `pnpm add --save-dev ${this.workspace ? '-w ' : ''}${name}`. -/
def PNPM.installDevDependency (workspace : Bool) (name : List Char) : List Char :=
  "pnpm add --save-dev ".toList ++ (if workspace then "-w ".toList else []) ++ name

/-- Embeds `PNPM.ci` (src/packageManager.ts line 116). -/
def PNPM.ci : List Char := "npm install -g pnpm && pnpm install".toList

/-- Embeds `PNPM.i` (src/packageManager.ts line 120): `return this.ci()`. -/
def PNPM.i : List Char := PNPM.ci

/-- The yarn workspace-root flag emitted by `Yarn.installDevDependency`. -/
def yarnWsFlag : List Char := ['-', 'W']

/-- The pnpm workspace-root flag emitted by `PNPM.installDevDependency`. -/
def pnpmWsFlag : List Char := ['-', 'w']

/-- Embeds `determinePackageManager` from `src/utils.ts` (the function
imported by `src/generator.ts`): lock files in the target directory are
consulted first (`yarn.lock`, then `pnpm-lock.yaml`), then the
`npm_config_user_agent` environment string, then the `npm` default.
The two `fs.existsSync` probes are abstracted as booleans and the
environment variable as `Option (List Char)` (`some []`, the empty
string, is falsy in JavaScript and skips the user-agent block). -/
def determinePackageManager (hasYarnLock hasPnpmLock : Bool)
    (userAgent : Option (List Char)) : PM :=
  if hasYarnLock then PM.yarn
  else if hasPnpmLock then PM.pnpm
  else
    match userAgent with
    | some ua =>
      if ua = [] then PM.npm
      else if includes ua "yarn".toList then PM.yarn
      else if includes ua "pnpm".toList then PM.pnpm
      else PM.npm
    | none => PM.npm

/-- Embeds the `classic` field set by the `Yarn` constructor
(src/packageManager.ts lines 55-59): `classic` starts `false` and, when a
version string was extracted from the user agent, becomes
`version.startsWith('0') || version.startsWith('1')`. -/
def yarnClassicOf : Option (List Char) → Bool
  | none => false
  | some v => strStartsWith v ['0'] || strStartsWith v ['1']

/-- Well-formed yarn version token with major number `maj`, as captured
by the regex `yarn\/(\d+\.\d+\.\d+)` in `determinePackageManager`
(src/packageManager.ts line 141): the decimal digits of the major number
followed by a dot and by the rest of the token. -/
def versionToken (maj : Nat) (rest : List Char) : List Char :=
  (Nat.repr maj).toList ++ '.' :: rest

/-- Embeds JavaScript `s.trimEnd()`. -/
def trimEnd (s : List Char) : List Char :=
  (s.reverse.dropWhile isWs).reverse

/-- Embeds `Generator._patchGitIgnore` (src/generator.ts lines 225-236)
as a pure function from the existing `.gitignore` content (`none` when
the file does not exist) to the content that is written back. -/
def patchGitIgnore (existing : Option (List Char)) : List Char :=
  let g0 : List Char :=
    match existing with
    | none => []
    | some content => trimEnd content ++ ['\n']
  let g1 := if includes g0 "node_modules".toList then g0 else g0 ++ "node_modules/\n".toList
  g1 ++ "/test-results/\n".toList ++ "/playwright-report/\n".toList
     ++ "/playwright/.cache/\n".toList

/-- Number of positions of a string at which `pat` occurs (for the
ignore-file entries counted below, occurrences cannot overlap, so this
is the plain occurrence count). -/
def countOccur (pat : List Char) : List Char → Nat
  | [] => 0
  | c :: cs => (if strStartsWith (c :: cs) pat then 1 else 0) + countOccur pat cs

/-- Section display mode of the template renderer
(`'show' | 'hide' | 'comment'` in `src/utils.ts`). -/
inductive SectionMode
  | «show»
  | hide
  | comment
  deriving DecidableEq, Repr

/-- The begin-marker pattern of `executeTemplate`'s unanchored regex
(two slashes, two dashes, `begin`, dash). -/
def beginPat : List Char := ['/', '/', '-', '-', 'b', 'e', 'g', 'i', 'n', '-']

/-- The end-marker pattern tested by `executeTemplate` against the
trimmed line (two slashes, two dashes, `end`, dash). -/
def endPat : List Char := ['/', '/', '-', '-', 'e', 'n', 'd', '-']

/-- The disabling prefix `'// '` inserted by comment mode. -/
def commentMark : List Char := ['/', '/', ' ']

/-- Embeds the begin-marker regex match of `executeTemplate`: the regex
is unanchored, so it fires on the first occurrence of `beginPat`
anywhere in the line; capture 1 is the maximal whitespace run
immediately before that occurrence (the recorded indent) and capture 2
is the rest of the line (the section name). -/
def matchBegin (line : List Char) : Option (List Char × List Char) :=
  match splitFirst beginPat line with
  | none => none
  | some (pre, post) => some ((pre.reverse.takeWhile isWs).reverse, post)

/-- Embeds the end-marker test of `executeTemplate`: the line is
trimmed and tested for the prefix `endPat`.  Trailing trimming cannot
affect a prefix test against a whitespace-free pattern, so only the
leading trim matters. -/
def isEndLine (line : List Char) : Bool :=
  strStartsWith (line.dropWhile isWs) endPat

/-- Embeds the comment-mode emission of `executeTemplate`:
`line.slice(0, indent.length) + '// ' + line.slice(indent.length)`.
Only the length of the recorded indent is used. -/
def commentLine (indentLen : Nat) (line : List Char) : List Char :=
  line.take indentLen ++ (commentMark ++ line.drop indentLen)

/-- Embeds `sections.get(name) || 'comment'` from `executeTemplate`: the
section table is an association list and an unmapped name falls back to
`comment` (every mode value is truthy in the JavaScript original). -/
def lookupMode : List (List Char × SectionMode) → List Char → SectionMode
  | [], _ => SectionMode.comment
  | (k, m) :: rest, name => if k = name then m else lookupMode rest name

/-- Embeds the line loop of `executeTemplate` (src/utils.ts lines 77-95):
a begin-marker line switches the mode to the table entry for its section
name and records its indent, an end-marker line resets the mode to
`show`, and every other line is emitted verbatim (`show`), dropped
(`hide`), or emitted with `// ` inserted after the recorded indent's
length (`comment`).  Marker lines are never emitted. -/
def execLines (sections : List (List Char × SectionMode)) :
    SectionMode → List Char → List (List Char) → List (List Char)
  | _, _, [] => []
  | mode, indent, line :: rest =>
    match matchBegin line with
    | some (ind, name) => execLines sections (lookupMode sections name) ind rest
    | none =>
      if isEndLine line then execLines sections SectionMode.«show» indent rest
      else
        match mode with
        | SectionMode.«show» => line :: execLines sections mode indent rest
        | SectionMode.hide => execLines sections mode indent rest
        | SectionMode.comment =>
            commentLine indent.length line :: execLines sections mode indent rest

/-- Embeds JavaScript `input.split('\n')`: always returns at least one
(possibly empty) line. -/
def splitLines : List Char → List (List Char)
  | [] => [[]]
  | c :: cs =>
    if c = '\n' then [] :: splitLines cs
    else
      match splitLines cs with
      | [] => [[c]]
      | l :: ls => (c :: l) :: ls

/-- Embeds JavaScript `result.join('\n')`. -/
def joinLines : List (List Char) → List Char
  | [] => []
  | [l] => l
  | l :: ls => l ++ '\n' :: joinLines ls

/-- Embeds `executeTemplate` from `src/utils.ts` (lines 74-97): apply the
placeholder substitutions, split into lines, run the section state
machine starting in `show` mode with an empty recorded indent, and join
the emitted lines. -/
def executeTemplate (input : List Char) (args : List (List Char × List Char))
    (sections : List (List Char × SectionMode)) : List Char :=
  joinLines (execLines sections SectionMode.«show» [] (splitLines (applySubsts args input)))

/-- Outcome of the CLI entry point (the unnamed source file defining
`bothBooleanOptionsSpecified`): print help and exit 0, report the
conflicting flag pairs on standard error and exit 1, or construct and
run the `Generator` (the only branch that creates the target directory,
executes commands and writes files). -/
inductive CliOutcome
  | helpExit
  | conflictExit (pairs : List (List Char × List Char))
  | runGenerator (options : List (List Char × List (Option (List Char))))
  deriving DecidableEq, Repr

/-- Exit code of an outcome; `none` means the process continues into the
generator. -/
def exitCode : CliOutcome → Option Nat
  | CliOutcome.helpExit => some 0
  | CliOutcome.conflictExit _ => some 1
  | CliOutcome.runGenerator _ => none

/-- Embeds the option-token regex match of the CLI entry point (two
dashes, then a captured non-empty run of non-`=` characters, then an
optional `=` and captured value): the unanchored regex matches at the
first position where `--` is followed by at least one non-`=`
character; the name is the maximal non-`=` run after that `--` and the
value is everything after the following `=` when present. -/
def findOpt : List Char → Option (List Char × Option (List Char))
  | [] => none
  | c₀ :: rest =>
    match c₀, rest with
    | '-', '-' :: c :: rest' =>
      if c = '=' then findOpt rest
      else
        some (c :: rest'.takeWhile (fun x => x ≠ '='),
          match rest'.dropWhile (fun x => x ≠ '=') with
          | [] => none
          | _ :: v => some v)
    | _, _ => findOpt rest

/-- Embeds the option-accumulation loop of the CLI entry point: a
repeated name pushes the value onto the existing array; a fresh name
maps to `[value]` when the value is truthy (present and non-empty) and
to `[]` otherwise. -/
def addOption (opts : List (List Char × List (Option (List Char))))
    (name : List Char) (value : Option (List Char)) :
    List (List Char × List (Option (List Char))) :=
  match opts with
  | [] =>
    match value with
    | some v => if v = [] then [(name, [])] else [(name, [some v])]
    | none => [(name, [])]
  | (k, vs) :: rest =>
    if k = name then (k, vs ++ [value]) :: rest
    else (k, vs) :: addOption rest name value

/-- Embeds the argument loop of the CLI entry point: every `--`-prefixed
token is parsed with `findOpt` (tokens the regex rejects are skipped)
and accumulated with `addOption`. -/
def parseOptions (argv : List (List Char)) : List (List Char × List (Option (List Char))) :=
  (argv.filter (fun a => strStartsWith a ['-', '-'])).foldl
    (fun opts token =>
      match findOpt token with
      | none => opts
      | some (n, v) => addOption opts n v)
    []

/-- Truthiness of `options[name]` in the CLI entry point: the key is
present (JavaScript arrays, including the empty array, are truthy). -/
def hasKey (opts : List (List Char × List (Option (List Char)))) (name : List Char) : Bool :=
  opts.any (fun kv => kv.1 = name)

/-- Embeds the `booleanOptionPairs` computation of the CLI entry point:
for every option name starting with `--no-` whose positive counterpart
`--X` is also registered, record the pair `(no-X, X)` of bare names.
`allOptions` is the list of registered option names (descriptions are
irrelevant here). -/
def booleanOptionPairs (allOptions : List (List Char)) : List (List Char × List Char) :=
  allOptions.filterMap (fun o =>
    if strStartsWith o "--no-".toList then
      if allOptions.contains ('-' :: '-' :: o.drop 5) then
        some (o.drop 2, o.drop 5)
      else none
    else none)

/-- Embeds the control flow of the CLI entry point around
`bothBooleanOptionsSpecified`: parse the options, honour `--help`
first, then report any mutually exclusive pair that was supplied twice
and exit 1, and only otherwise construct the `Generator` (whose
constructor is the first side effect: it creates the target
directory). -/
def cliMain (allOptions : List (List Char)) (argv : List (List Char)) : CliOutcome :=
  let opts := parseOptions argv
  if hasKey opts "help".toList then CliOutcome.helpExit
  else
    let both := (booleanOptionPairs allOptions).filter
      (fun pr => hasKey opts pr.1 && hasKey opts pr.2)
    if both.isEmpty then CliOutcome.runGenerator opts
    else CliOutcome.conflictExit both

/-- The section names of the begin-marker lines of a line list, in
order: the names `executeTemplate` would look up in the section table. -/
def beginNames (L : List (List Char)) : List (List Char) :=
  L.filterMap (fun l => (matchBegin l).map Prod.snd)

/-- A substring occurrence on the left part survives an append. -/
theorem sub_of_left {α : Type} {p A : List α} (B : List α) (h : p <:+: A) : p <:+: A ++ B := by
  rcases h with ⟨s, t, rfl⟩
  exact ⟨s, t ++ B, by simp⟩

/-- A substring occurrence on the right part survives an append. -/
theorem sub_of_right {α : Type} (A : List α) {p B : List α} (h : p <:+: B) : p <:+: A ++ B := by
  rcases h with ⟨s, t, rfl⟩
  exact ⟨A ++ s, t, by simp⟩

/-- A prefix of an append is a prefix of the left part or extends it. -/
theorem pre_append_cases {α : Type} {p A B : List α} (h : p <+: A ++ B) :
    p <+: A ∨ (A <+: p ∧ p.drop A.length <+: B) := by
  induction A generalizing p with
  | nil => exact Or.inr ⟨List.nil_prefix, by simpa using h⟩
  | cons a A ih =>
    cases p with
    | nil => exact Or.inl List.nil_prefix
    | cons x p =>
      rw [List.cons_append, List.cons_prefix_cons] at h
      obtain ⟨rfl, h⟩ := h
      rcases ih h with h' | ⟨h1, h2⟩
      · exact Or.inl (List.cons_prefix_cons.mpr ⟨rfl, h'⟩)
      · exact Or.inr ⟨List.cons_prefix_cons.mpr ⟨rfl, h1⟩, by simpa using h2⟩

/-- A substring of `a :: L` is a prefix of it or a substring of `L`. -/
theorem sub_cons_cases {α : Type} {p : List α} {a : α} {L : List α} (h : p <:+: a :: L) :
    p <+: a :: L ∨ p <:+: L := by
  rcases h with ⟨s, t, hst⟩
  cases s with
  | nil => exact Or.inl ⟨t, by simpa using hst⟩
  | cons x s =>
    rw [List.cons_append, List.cons_append] at hst
    injection hst with hx hL
    exact Or.inr ⟨s, t, by simpa using hL⟩

/-- Decomposition of a substring occurrence in an append: the occurrence
lies in the left part, in the right part, or spans the boundary with a
non-empty suffix piece and a non-empty prefix piece. -/
theorem sub_append_cases {α : Type} {p A B : List α} (h : p <:+: A ++ B) :
    p <:+: A ∨ p <:+: B ∨
      ∃ p₁ p₂, p = p₁ ++ p₂ ∧ p₁ ≠ [] ∧ p₂ ≠ [] ∧ p₁ <:+ A ∧ p₂ <+: B := by
  induction A with
  | nil => exact Or.inr (Or.inl (by simpa using h))
  | cons a A ih =>
    rw [List.cons_append] at h
    rcases sub_cons_cases h with h | h
    · cases p with
      | nil => exact Or.inl List.nil_infix
      | cons x p' =>
        rw [List.cons_prefix_cons] at h
        obtain ⟨rfl, hp⟩ := h
        rcases pre_append_cases hp with h' | ⟨h1, h2⟩
        · exact Or.inl (List.cons_prefix_cons.mpr ⟨rfl, h'⟩).isInfix
        · rcases h1 with ⟨q, rfl⟩
          rw [List.drop_left] at h2
          by_cases hq : q = []
          · subst hq
            exact Or.inl (by simp [List.infix_refl])
          · exact Or.inr (Or.inr ⟨x :: A, q, by simp, by simp, hq,
              List.suffix_refl (x :: A), h2⟩)
    · rcases ih h with h' | h' | ⟨p₁, p₂, rfl, h1, h2, h3, h4⟩
      · exact Or.inl (h'.trans (List.suffix_cons a A).isInfix)
      · exact Or.inr (Or.inl h')
      · exact Or.inr (Or.inr ⟨p₁, p₂, rfl, h1, h2, h3.trans (List.suffix_cons a A), h4⟩)

/-- The only split of a two-element list into two non-empty parts. -/
theorem pair_split {α : Type} {a b : α} {p₁ p₂ : List α} (h : [a, b] = p₁ ++ p₂)
    (h1 : p₁ ≠ []) (h2 : p₂ ≠ []) : p₁ = [a] ∧ p₂ = [b] := by
  cases p₁ with
  | nil => exact absurd rfl h1
  | cons x p₁' =>
    cases p₁' with
    | nil =>
      rw [List.cons_append, List.nil_append] at h
      injection h with hx ht
      exact ⟨by rw [hx], by rw [ht]⟩
    | cons y p₁'' =>
      rw [List.cons_append, List.cons_append] at h
      injection h with hx h
      injection h with hy h
      exact absurd (List.append_eq_nil.mp h.symm).2 h2

/-- Characterisation of `strStartsWith` as list prefixhood. -/
theorem strStartsWith_iff {s pat : List Char} : strStartsWith s pat = true ↔ pat <+: s := by
  induction pat generalizing s with
  | nil => simp [strStartsWith]
  | cons p ps ih =>
    cases s with
    | nil =>
      rw [show strStartsWith [] (p :: ps) = false from rfl]
      simp
    | cons c cs =>
      rw [show strStartsWith (c :: cs) (p :: ps) = (c == p && strStartsWith cs ps) from rfl]
      rw [Bool.and_eq_true, beq_iff_eq, ih, List.cons_prefix_cons]
      exact and_congr_left' eq_comm

/-- Correctness of `splitFirst`: a `some` answer is an occurrence. -/
theorem splitFirst_eq_some {pat s pre post : List Char}
    (h : splitFirst pat s = some (pre, post)) : s = pre ++ pat ++ post := by
  induction s generalizing pre post with
  | nil => simp [splitFirst] at h
  | cons c cs ih =>
    rw [splitFirst] at h
    by_cases hsw : strStartsWith (c :: cs) pat = true
    · rw [if_pos hsw] at h
      injection h with h
      injection h with h1 h2
      rcases strStartsWith_iff.mp hsw with ⟨t, ht⟩
      subst h1
      subst h2
      rw [← ht]
      simp [List.drop_left]
    · rw [if_neg hsw] at h
      cases h2 : splitFirst pat cs with
      | none => rw [h2] at h; simp at h
      | some pr =>
        rw [h2] at h
        simp only [Option.map_some', Option.some.injEq, Prod.mk.injEq] at h
        obtain ⟨h1, h3⟩ := h
        have hcs : cs = pr.1 ++ pat ++ pr.2 := ih (by simpa using h2)
        rw [← h1, ← h3, List.cons_append, List.cons_append, ← hcs]

/-- Completeness of `splitFirst`: `none` means no occurrence. -/
theorem splitFirst_eq_none {pat : List Char} (hp : pat ≠ []) {s : List Char} :
    splitFirst pat s = none ↔ ¬ pat <:+: s := by
  induction s with
  | nil => simp [splitFirst, List.infix_nil, hp]
  | cons c cs ih =>
    rw [splitFirst]
    by_cases hsw : strStartsWith (c :: cs) pat = true
    · have hin : pat <:+: c :: cs := (strStartsWith_iff.mp hsw).isInfix
      simp [hsw, hin]
    · rw [if_neg hsw]
      rw [Option.map_eq_none', ih]
      constructor
      · intro hn hcontra
        rcases sub_cons_cases hcontra with h | h
        · exact hsw (strStartsWith_iff.mpr h)
        · exact hn h
      · intro hn h
        exact hn (h.trans (List.suffix_cons c cs).isInfix)

/-- A begin-marker match fails exactly when the begin pattern does not
occur in the line. -/
theorem matchBegin_eq_none {line : List Char} :
    matchBegin line = none ↔ ¬ beginPat <:+: line := by
  rw [matchBegin]
  cases h : splitFirst beginPat line with
  | none =>
    simp only []
    have hn : ¬ beginPat <:+: line := (splitFirst_eq_none (by decide)).mp h
    simp [hn]
  | some pr =>
    simp only []
    have hocc : beginPat <:+: line := ⟨pr.1, pr.2, (splitFirst_eq_some (by simp [h])).symm⟩
    simp [hocc]

/-- A line fails the end-marker test exactly when the end pattern is not
a prefix of its leading-whitespace-trimmed form. -/
theorem isEndLine_eq_false {line : List Char} :
    isEndLine line = false ↔ ¬ endPat <+: line.dropWhile isWs := by
  rw [isEndLine, ← strStartsWith_iff]
  cases strStartsWith (line.dropWhile isWs) endPat <;> simp

/-- The non-empty suffixes of the comment marker `// `. -/
theorem suffix_of_commentMark {p : List Char} (h : p <:+ commentMark) :
    p = [] ∨ p = [' '] ∨ p = ['/', ' '] ∨ p = commentMark := by
  rcases h with ⟨s, hs⟩
  rcases s with _ | ⟨x, _ | ⟨y, _ | ⟨z, s⟩⟩⟩ <;> simp_all [commentMark]

/-- The prefixes of the comment marker `// `. -/
theorem prefix_of_commentMark {p : List Char} (h : p <+: commentMark) :
    p = [] ∨ p = ['/'] ∨ p = ['/', '/'] ∨ p = commentMark := by
  rcases h with ⟨t, ht⟩
  rcases p with _ | ⟨x, _ | ⟨y, _ | ⟨z, p⟩⟩⟩ <;> simp_all [commentMark]

/-- Inserting the comment marker cannot create a begin-pattern
occurrence: if the begin pattern does not occur in `l`, it does not
occur in `commentLine k l` either. -/
theorem commentLine_no_begin {l : List Char} {k : Nat} (h : ¬ beginPat <:+: l) :
    ¬ beginPat <:+: commentLine k l := by
  intro hcon
  rw [commentLine] at hcon
  rcases sub_append_cases hcon with h1 | h1 | ⟨p₁, p₂, heq, hne1, hne2, hsuf, hpre⟩
  · exact h (h1.trans (List.take_prefix k l).isInfix)
  · rcases sub_append_cases h1 with h2 | h2 | ⟨q₁, q₂, heq, hne1, hne2, hsuf, hpre⟩
    · have := h2.length_le
      rw [beginPat, commentMark] at this
      simp at this
    · exact h (h2.trans (List.drop_suffix k l).isInfix)
    · rcases suffix_of_commentMark hsuf with h3 | h3 | h3 | h3 <;>
        subst h3 <;> simp [beginPat, commentMark] at heq ⊢
      exact hne1 rfl
  · rcases pre_append_cases hpre with h2 | ⟨h2, h3⟩
    · have hps : p₂ <:+ beginPat := ⟨p₁, heq.symm⟩
      rcases prefix_of_commentMark h2 with h4 | h4 | h4 | h4 <;> subst h4
      · exact hne2 rfl
      · exact absurd hps (by decide)
      · exact absurd hps (by decide)
      · exact absurd hps (by decide)
    · have hps : p₂ <:+ beginPat := ⟨p₁, heq.symm⟩
      have hinf : commentMark <:+: beginPat := h2.isInfix.trans hps.isInfix
      exact absurd hinf (by decide)

/-- The prefixes of the end pattern, enumerated. -/
theorem prefix_of_endPat {p : List Char} (h : p <+: endPat) :
    p = [] ∨ p = ['/'] ∨ p = ['/', '/'] ∨ p = ['/', '/', '-'] ∨ p = ['/', '/', '-', '-'] ∨
      p = ['/', '/', '-', '-', 'e'] ∨ p = ['/', '/', '-', '-', 'e', 'n'] ∨
      p = ['/', '/', '-', '-', 'e', 'n', 'd'] ∨ p = endPat := by
  rcases h with ⟨t, ht⟩
  rcases p with _ | ⟨x1, _ | ⟨x2, _ | ⟨x3, _ | ⟨x4, _ | ⟨x5, _ | ⟨x6, _ | ⟨x7, _ | ⟨x8, p⟩⟩⟩⟩⟩⟩⟩⟩ <;>
    simp_all [endPat]

/-- Inserting the comment marker cannot create an end-marker line: if
`l` is not an end line, `commentLine k l` is not one either. -/
theorem commentLine_no_end {l : List Char} {k : Nat} (h : isEndLine l = false) :
    isEndLine (commentLine k l) = false := by
  rw [isEndLine_eq_false] at h ⊢
  rw [commentLine, List.dropWhile_append]
  have hws : isWs '/' = false := by decide
  by_cases h0 : ((l.take k).dropWhile isWs).isEmpty = true
  · rw [if_pos h0]
    have hM : (commentMark ++ l.drop k).dropWhile isWs = commentMark ++ l.drop k := by
      simp [commentMark, List.dropWhile_cons, hws]
    rw [hM]
    rintro ⟨t, ht⟩
    simp [endPat, commentMark] at ht
  · rw [if_neg h0]
    have hl : l.dropWhile isWs = (l.take k).dropWhile isWs ++ l.drop k := by
      conv_lhs => rw [← List.take_append_drop k l]
      rw [List.dropWhile_append, if_neg h0]
    rw [hl] at h
    have hPne : (l.take k).dropWhile isWs ≠ [] := by
      simpa [List.isEmpty_iff] using h0
    intro hcon
    rcases pre_append_cases hcon with h1 | ⟨h1, h2⟩
    · exact h (h1.trans (List.prefix_append _ _))
    · rcases prefix_of_endPat h1 with h3 | h3 | h3 | h3 | h3 | h3 | h3 | h3 | h3
      · exact hPne h3
      all_goals rw [h3] at hcon
      · rcases hcon with ⟨t, ht⟩
        simp [endPat, commentMark] at ht
      · rcases hcon with ⟨t, ht⟩
        simp [endPat, commentMark] at ht
      · rcases hcon with ⟨t, ht⟩
        simp [endPat, commentMark] at ht
      · rcases hcon with ⟨t, ht⟩
        simp [endPat, commentMark] at ht
      · rcases hcon with ⟨t, ht⟩
        simp [endPat, commentMark] at ht
      · rcases hcon with ⟨t, ht⟩
        simp [endPat, commentMark] at ht
      · rcases hcon with ⟨t, ht⟩
        simp [endPat, commentMark] at ht
      · exact h (by rw [h3]; exact List.prefix_append _ _)

/-- Unfold equation of `execLines` on the empty line list. -/
theorem execLines_nil (sections : List (List Char × SectionMode)) (mode : SectionMode)
    (ind : List Char) : execLines sections mode ind [] = [] := rfl

/-- Unfold equation of `execLines` on a line followed by the rest. -/
theorem execLines_cons (sections : List (List Char × SectionMode)) (mode : SectionMode)
    (ind line : List Char) (rest : List (List Char)) :
    execLines sections mode ind (line :: rest) =
      (match matchBegin line with
       | some (i, name) => execLines sections (lookupMode sections name) i rest
       | none =>
         if isEndLine line then execLines sections SectionMode.«show» ind rest
         else
           match mode with
           | SectionMode.«show» => line :: execLines sections mode ind rest
           | SectionMode.hide => execLines sections mode ind rest
           | SectionMode.comment =>
               commentLine ind.length line :: execLines sections mode ind rest) := rfl

/-- Step equation: a begin-marker line switches mode and indent and is
dropped, whatever the current mode. -/
theorem execLines_begin {sections : List (List Char × SectionMode)}
    {mode : SectionMode} {ind line ind' name : List Char} {rest : List (List Char)}
    (h : matchBegin line = some (ind', name)) :
    execLines sections mode ind (line :: rest) =
      execLines sections (lookupMode sections name) ind' rest := by
  rw [execLines_cons, h]

/-- Step equation: an end-marker line resets the mode to `show` and is
dropped, whatever the current mode. -/
theorem execLines_end {sections : List (List Char × SectionMode)}
    {mode : SectionMode} {ind line : List Char} {rest : List (List Char)}
    (h1 : matchBegin line = none) (h2 : isEndLine line = true) :
    execLines sections mode ind (line :: rest) =
      execLines sections SectionMode.«show» ind rest := by
  rw [execLines_cons, h1]
  simp [h2]

/-- Step equation for an ordinary line in `show` mode. -/
theorem execLines_show_step {sections : List (List Char × SectionMode)}
    {ind line : List Char} {rest : List (List Char)}
    (h1 : matchBegin line = none) (h2 : isEndLine line = false) :
    execLines sections SectionMode.«show» ind (line :: rest) =
      line :: execLines sections SectionMode.«show» ind rest := by
  rw [execLines_cons, h1]
  simp [h2]

/-- Step equation for an ordinary line in `hide` mode. -/
theorem execLines_hide_step {sections : List (List Char × SectionMode)}
    {ind line : List Char} {rest : List (List Char)}
    (h1 : matchBegin line = none) (h2 : isEndLine line = false) :
    execLines sections SectionMode.hide ind (line :: rest) =
      execLines sections SectionMode.hide ind rest := by
  rw [execLines_cons, h1]
  simp [h2]

/-- Step equation for an ordinary line in `comment` mode. -/
theorem execLines_comment_step {sections : List (List Char × SectionMode)}
    {ind line : List Char} {rest : List (List Char)}
    (h1 : matchBegin line = none) (h2 : isEndLine line = false) :
    execLines sections SectionMode.comment ind (line :: rest) =
      commentLine ind.length line :: execLines sections SectionMode.comment ind rest := by
  rw [execLines_cons, h1]
  simp [h2]

/-- Every line emitted by the section state machine fails both marker
tests, whatever the input lines, mode, indent and section table. -/
theorem execLines_no_markers {sections : List (List Char × SectionMode)} :
    ∀ (L : List (List Char)) (mode : SectionMode) (ind l : List Char),
      l ∈ execLines sections mode ind L → matchBegin l = none ∧ isEndLine l = false := by
  intro L
  induction L with
  | nil =>
    intro mode ind l hl
    rw [execLines_nil] at hl
    simp at hl
  | cons line rest ih =>
    intro mode ind l hl
    cases hb : matchBegin line with
    | some pr =>
      rw [execLines_begin (by rw [hb])] at hl
      exact ih _ _ _ hl
    | none =>
      cases he : isEndLine line with
      | true =>
        rw [execLines_end hb he] at hl
        exact ih _ _ _ hl
      | false =>
        cases mode with
        | «show» =>
          rw [execLines_show_step hb he] at hl
          rcases List.mem_cons.mp hl with rfl | hl
          · exact ⟨hb, he⟩
          · exact ih _ _ _ hl
        | hide =>
          rw [execLines_hide_step hb he] at hl
          exact ih _ _ _ hl
        | comment =>
          rw [execLines_comment_step hb he] at hl
          rcases List.mem_cons.mp hl with rfl | hl
          · refine ⟨matchBegin_eq_none.mpr ?_, commentLine_no_end he⟩
            exact commentLine_no_begin (matchBegin_eq_none.mp hb)
          · exact ih _ _ _ hl

/-- Lines produced by `splitLines` contain no newline character. -/
theorem splitLines_no_newline : ∀ (s l : List Char), l ∈ splitLines s → '\n' ∉ l := by
  intro s
  induction s with
  | nil =>
    intro l hl
    rw [splitLines] at hl
    simp at hl
    simp [hl]
  | cons c cs ih =>
    intro l hl
    rw [splitLines] at hl
    by_cases hc : c = '\n'
    · rw [if_pos hc] at hl
      rcases List.mem_cons.mp hl with rfl | hl
      · simp
      · exact ih l hl
    · rw [if_neg hc] at hl
      cases h2 : splitLines cs with
      | nil =>
        rw [h2] at hl
        simp at hl
        simp [hl]
        exact fun he => hc he.symm
      | cons l' ls =>
        rw [h2] at hl
        rcases List.mem_cons.mp hl with rfl | hl
        · intro hmem
          rcases List.mem_cons.mp hmem with he | hmem
          · exact hc he.symm
          · exact ih l' (h2 ▸ List.mem_cons_self l' ls) hmem
        · exact ih l (h2 ▸ List.mem_cons_of_mem l' hl)

/-- The section state machine emits only newline-free lines when fed
newline-free lines. -/
theorem execLines_no_newline {sections : List (List Char × SectionMode)} :
    ∀ (L : List (List Char)) (mode : SectionMode) (ind l : List Char),
      (∀ l' ∈ L, '\n' ∉ l') → l ∈ execLines sections mode ind L → '\n' ∉ l := by
  intro L
  induction L with
  | nil =>
    intro mode ind l _ hl
    rw [execLines_nil] at hl
    simp at hl
  | cons line rest ih =>
    intro mode ind l hL hl
    have hline : '\n' ∉ line := hL line (List.mem_cons_self line rest)
    have hrest : ∀ l' ∈ rest, '\n' ∉ l' := fun l' h => hL l' (List.mem_cons_of_mem line h)
    cases hb : matchBegin line with
    | some pr =>
      rw [execLines_begin (by rw [hb])] at hl
      exact ih _ _ _ hrest hl
    | none =>
      cases he : isEndLine line with
      | true =>
        rw [execLines_end hb he] at hl
        exact ih _ _ _ hrest hl
      | false =>
        cases mode with
        | «show» =>
          rw [execLines_show_step hb he] at hl
          rcases List.mem_cons.mp hl with rfl | hl
          · exact hline
          · exact ih _ _ _ hrest hl
        | hide =>
          rw [execLines_hide_step hb he] at hl
          exact ih _ _ _ hrest hl
        | comment =>
          rw [execLines_comment_step hb he] at hl
          rcases List.mem_cons.mp hl with rfl | hl
          · rw [commentLine]
            intro hmem
            rcases List.mem_append.mp hmem with h1 | h1
            · exact hline (List.mem_of_mem_take h1)
            · rcases List.mem_append.mp h1 with h2 | h2
              · rw [commentMark] at h2
                simp at h2
              · exact hline (List.mem_of_mem_drop h2)
          · exact ih _ _ _ hrest hl

/-- Prepending a character to the first line commutes with joining. -/
theorem joinLines_cons_head (c : Char) (l : List Char) (ls : List (List Char)) :
    joinLines ((c :: l) :: ls) = c :: joinLines (l :: ls) := by
  cases ls with
  | nil => rfl
  | cons l2 ls2 => rfl

/-- `splitLines` never returns the empty list of lines. -/
theorem splitLines_ne_nil (s : List Char) : splitLines s ≠ [] := by
  cases s with
  | nil => simp [splitLines]
  | cons c cs =>
    rw [splitLines]
    by_cases hc : c = '\n'
    · simp [hc]
    · rw [if_neg hc]
      cases h2 : splitLines cs <;> simp

/-- Joining the split lines reproduces the original text. -/
theorem joinLines_splitLines (s : List Char) : joinLines (splitLines s) = s := by
  induction s with
  | nil => rfl
  | cons c cs ih =>
    rw [splitLines]
    by_cases hc : c = '\n'
    · rw [if_pos hc]
      cases h2 : splitLines cs with
      | nil => exact absurd h2 (splitLines_ne_nil cs)
      | cons l ls =>
        show joinLines ([] :: l :: ls) = c :: cs
        rw [show joinLines ([] :: l :: ls) = [] ++ '\n' :: joinLines (l :: ls) from rfl]
        rw [h2] at ih
        simp [ih, hc]
    · rw [if_neg hc]
      cases h2 : splitLines cs with
      | nil => exact absurd h2 (splitLines_ne_nil cs)
      | cons l ls =>
        rw [joinLines_cons_head]
        rw [h2] at ih
        rw [ih]

/-- Splitting a newline-free text yields that single line. -/
theorem splitLines_single {l : List Char} (h : '\n' ∉ l) : splitLines l = [l] := by
  induction l with
  | nil => rfl
  | cons c cs ih =>
    rw [splitLines]
    have hc : ¬ c = '\n' := fun he => h (by simp [he])
    rw [if_neg hc]
    rw [ih (fun hm => h (List.mem_cons_of_mem c hm))]

/-- Splitting at an explicit first newline peels off the first line. -/
theorem splitLines_append_newline {A X : List Char} (h : '\n' ∉ A) :
    splitLines (A ++ '\n' :: X) = A :: splitLines X := by
  induction A with
  | nil => simp [splitLines]
  | cons a A ih =>
    have ha : ¬ a = '\n' := fun he => h (by simp [he])
    rw [List.cons_append, splitLines, if_neg ha]
    rw [ih (fun hm => h (List.mem_cons_of_mem a hm))]

/-- Splitting the join of non-empty, newline-free lines is the identity. -/
theorem splitLines_joinLines : ∀ (L : List (List Char)), L ≠ [] →
    (∀ l ∈ L, '\n' ∉ l) → splitLines (joinLines L) = L := by
  intro L
  induction L with
  | nil => intro h; exact absurd rfl h
  | cons l ls ih =>
    intro _ hL
    cases ls with
    | nil =>
      show splitLines (joinLines [l]) = [l]
      rw [show joinLines [l] = l from rfl]
      exact splitLines_single (hL l (List.mem_cons_self l []))
    | cons l2 ls2 =>
      rw [show joinLines (l :: l2 :: ls2) = l ++ '\n' :: joinLines (l2 :: ls2) from rfl]
      rw [splitLines_append_newline (hL l (List.mem_cons_self l (l2 :: ls2)))]
      rw [ih (by simp) (fun l' h' => hL l' (List.mem_cons_of_mem l h'))]

/-- When every begin-marker name of the line list is mapped to `show`,
the state machine keeps exactly the non-marker lines, verbatim. -/
theorem execLines_all_show {sections : List (List Char × SectionMode)} :
    ∀ (L : List (List Char)),
      (∀ name ∈ beginNames L, lookupMode sections name = SectionMode.«show») →
      ∀ ind, execLines sections SectionMode.«show» ind L =
        L.filter (fun l => (matchBegin l).isNone && !isEndLine l) := by
  intro L
  induction L with
  | nil =>
    intro _ ind
    rw [execLines_nil]
    rfl
  | cons line rest ih =>
    intro hnames ind
    cases hb : matchBegin line with
    | some pr =>
      have hname : pr.2 ∈ beginNames (line :: rest) := by
        rw [beginNames]
        simp [hb]
      have hrest : ∀ name ∈ beginNames rest, lookupMode sections name = SectionMode.«show» := by
        intro name hn
        refine hnames name ?_
        rw [beginNames] at hn ⊢
        simp only [List.filterMap_cons, hb, Option.map_some']
        exact List.mem_cons_of_mem _ hn
      rw [execLines_begin (by rw [hb]), hnames pr.2 hname]
      rw [List.filter_cons_of_neg (by simp [hb])]
      exact ih hrest pr.1
    | none =>
      have hrest : ∀ name ∈ beginNames rest, lookupMode sections name = SectionMode.«show» := by
        intro name hn
        refine hnames name ?_
        rw [beginNames] at hn ⊢
        simp only [List.filterMap_cons, hb, Option.map_none']
        exact hn
      cases he : isEndLine line with
      | true =>
        rw [execLines_end hb he]
        rw [List.filter_cons_of_neg (by simp [hb, he])]
        exact ih hrest ind
      | false =>
        rw [execLines_show_step hb he]
        rw [List.filter_cons_of_pos (by simp [hb, he])]
        rw [ih hrest ind]

/-- On marker-free lines the state machine in `show` mode is the
identity. -/
theorem execLines_id {sections : List (List Char × SectionMode)} {ind : List Char} :
    ∀ (L : List (List Char)),
      (∀ l ∈ L, matchBegin l = none ∧ isEndLine l = false) →
      execLines sections SectionMode.«show» ind L = L := by
  intro L
  induction L with
  | nil => intro _; rw [execLines_nil]
  | cons line rest ih =>
    intro hL
    obtain ⟨hb, he⟩ := hL line (List.mem_cons_self line rest)
    rw [execLines_show_step hb he]
    rw [ih (fun l h => hL l (List.mem_cons_of_mem line h))]

/-- In `comment` mode, a run of marker-free lines closed by an
end-marker line is emitted with the comment marker inserted after the
recorded indent length on every line, and processing resumes in `show`
mode. -/
theorem execLines_comment_run {sections : List (List Char × SectionMode)} {ind : List Char} :
    ∀ (L : List (List Char)) (endLine : List Char) (rest : List (List Char)),
      (∀ l ∈ L, matchBegin l = none ∧ isEndLine l = false) →
      matchBegin endLine = none → isEndLine endLine = true →
      execLines sections SectionMode.comment ind (L ++ endLine :: rest) =
        L.map (commentLine ind.length) ++ execLines sections SectionMode.«show» ind rest := by
  intro L
  induction L with
  | nil =>
    intro endLine rest _ hb he
    rw [List.nil_append, execLines_end hb he]
    rfl
  | cons line L ih =>
    intro endLine rest hL hb he
    obtain ⟨hb', he'⟩ := hL line (List.mem_cons_self line L)
    rw [List.cons_append, execLines_comment_step hb' he']
    rw [ih endLine rest (fun l h => hL l (List.mem_cons_of_mem line h)) hb he]
    rfl

/-- `lookupMode` falls back to `comment` when the name is not a key of
the section table. -/
theorem lookupMode_not_mem : ∀ (sections : List (List Char × SectionMode)) (name : List Char),
    (∀ kv ∈ sections, kv.1 ≠ name) → lookupMode sections name = SectionMode.comment := by
  intro sections name
  induction sections with
  | nil => intro _; rfl
  | cons kv rest ih =>
    intro h
    rw [lookupMode]
    rw [if_neg (h kv (List.mem_cons_self kv rest))]
    exact ih (fun kv' h' => h kv' (List.mem_cons_of_mem kv h'))

/-- C2: for every target directory and environment, if a `yarn.lock`
file is present in the target directory, `determinePackageManager`
selects the yarn variant even when `npm_config_user_agent` indicates
pnpm — lock-file evidence takes precedence over the user-agent
signal. -/
theorem spec_c2_lock_file_priority (hasPnpmLock : Bool) (ua : List Char)
    (_hpnpm : includes ua "pnpm".toList = true) :
    determinePackageManager true hasPnpmLock (some ua) = PM.yarn := rfl

/-- Witness for C2 at a concrete pnpm user agent. -/
theorem spec_c2_lock_file_priority_witness :
    includes "pnpm/6.0.0".toList "pnpm".toList = true ∧
    determinePackageManager true false (some "pnpm/6.0.0".toList) = PM.yarn :=
  ⟨by decide, spec_c2_lock_file_priority false "pnpm/6.0.0".toList (by decide)⟩

/-- C3 counterexample: the claim says a well-formed version token with
major number 10 is classified berry (major ≥ 2, not classic), but the
code's `startsWith('1')` test classifies `10.0.0` as classic. -/
theorem spec_c3_counterexample :
    yarnClassicOf (some (versionToken 10 ('0' :: '.' :: ['0']))) = true ∧
    ¬ (10 = 0 ∨ 10 = 1) := by
  constructor
  · decide
  · decide

/-- C3 amended: the `startsWith('0') || startsWith('1')` test agrees
with "classic iff major is 0 or 1" exactly for single-digit majors (a
major of 10–19 is misclassified as classic). -/
theorem spec_c3_amended (maj : Nat) (rest : List Char) (h : maj < 10) :
    yarnClassicOf (some (versionToken maj rest)) = true ↔ maj = 0 ∨ maj = 1 := by
  have h0 : (Nat.repr 0).toList = ['0'] := by decide
  have h1 : (Nat.repr 1).toList = ['1'] := by decide
  have h2 : (Nat.repr 2).toList = ['2'] := by decide
  have h3 : (Nat.repr 3).toList = ['3'] := by decide
  have h4 : (Nat.repr 4).toList = ['4'] := by decide
  have h5 : (Nat.repr 5).toList = ['5'] := by decide
  have h6 : (Nat.repr 6).toList = ['6'] := by decide
  have h7 : (Nat.repr 7).toList = ['7'] := by decide
  have h8 : (Nat.repr 8).toList = ['8'] := by decide
  have h9 : (Nat.repr 9).toList = ['9'] := by decide
  interval_cases maj <;>
    simp only [versionToken, h0, h1, h2, h3, h4, h5, h6, h7, h8, h9, List.cons_append,
      List.nil_append, yarnClassicOf, strStartsWith] <;>
    decide

/-- Witness for the amended C3 at version token `1.2.3`. -/
theorem spec_c3_amended_witness :
    1 < 10 ∧ (yarnClassicOf (some (versionToken 1 ('2' :: '.' :: ['3']))) = true ↔ 1 = 0 ∨ 1 = 1) :=
  ⟨by decide, spec_c3_amended 1 ('2' :: '.' :: ['3']) (by decide)⟩

/-- C4 counterexample: the claim says `ci()` differs from `i()` for
every variant, but the yarn and pnpm variants define `i()` as exactly
`ci()`. -/
theorem spec_c4_counterexample : Yarn.i = Yarn.ci ∧ PNPM.i = PNPM.ci :=
  ⟨rfl, rfl⟩

/-- C4 amended: the clean-install and mutating-install command strings
differ only for the npm variant; for yarn and pnpm, `i()` returns
exactly the `ci()` command. -/
theorem spec_c4_amended : NPM.ci ≠ NPM.i ∧ Yarn.i = Yarn.ci ∧ PNPM.i = PNPM.ci := by
  refine ⟨?_, rfl, rfl⟩
  decide

/-- C8: `_patchGitIgnore` deduplicates only the `node_modules` entry.
On an existing ignore file that already consists of the entry
`/test-results/`, the entry occurs once in the input but twice in the
output, contradicting the claim (and the repository's own test `should
not duplicate gitignore entries`). -/
theorem spec_c8_patchGitIgnore_duplicates :
    countOccur "/test-results/".toList "/test-results/".toList = 1 ∧
    countOccur "/test-results/".toList (patchGitIgnore (some "/test-results/".toList)) = 2 := by
  constructor
  · decide
  · decide

/-- A two-character flag absent from both parts, whose first character
does not end the left part, does not occur in their concatenation. -/
theorem not_sub_of_parts (a b : Char) {A name : List Char} (hA : ¬ [a, b] <:+: A)
    (h1 : ¬ [a] <:+ A) (hname : ¬ [a, b] <:+: name) : ¬ [a, b] <:+: A ++ name := by
  intro h
  rcases sub_append_cases h with h' | h' | ⟨p₁, p₂, heq, hne1, hne2, hsuf, _⟩
  · exact hA h'
  · exact hname h'
  · obtain ⟨e1, _⟩ := pair_split heq hne1 hne2
    rw [e1] at hsuf
    exact h1 hsuf

/-- C1: for every package-manager variant, `installDevDependency name`
contains `name` verbatim; the yarn command contains the workspace-root
flag `-W` iff a workspace was detected and the version is classic, the
pnpm command contains `-w` iff a workspace was detected, and the npm
command never contains either flag — provided `name` itself does not
contain the flag in question. -/
theorem spec_c1_installDevDependency (ws classic : Bool) (name : List Char) :
    (name <:+: NPM.installDevDependency name ∧
     name <:+: Yarn.installDevDependency ws classic name ∧
     name <:+: PNPM.installDevDependency ws name) ∧
    (¬ yarnWsFlag <:+: name →
      (yarnWsFlag <:+: Yarn.installDevDependency ws classic name ↔ ws = true ∧ classic = true)) ∧
    (¬ pnpmWsFlag <:+: name →
      (pnpmWsFlag <:+: PNPM.installDevDependency ws name ↔ ws = true)) ∧
    (¬ yarnWsFlag <:+: name → ¬ yarnWsFlag <:+: NPM.installDevDependency name) ∧
    (¬ pnpmWsFlag <:+: name → ¬ pnpmWsFlag <:+: NPM.installDevDependency name) := by
  refine ⟨⟨?_, ?_, ?_⟩, ?_, ?_, ?_, ?_⟩
  · exact sub_of_right _ (List.infix_refl name)
  · show name <:+: "yarn add --dev ".toList ++ ((if ws && classic then "-W ".toList else []) ++ name)
    exact sub_of_right _ (sub_of_right _ (List.infix_refl name))
  · show name <:+: "pnpm add --save-dev ".toList ++ ((if ws then "-w ".toList else []) ++ name)
    exact sub_of_right _ (sub_of_right _ (List.infix_refl name))
  · intro hname
    cases ws <;> cases classic
    · exact iff_of_false
        (not_sub_of_parts '-' 'W' (by decide) (by decide) hname) (by simp)
    · exact iff_of_false
        (not_sub_of_parts '-' 'W' (by decide) (by decide) hname) (by simp)
    · exact iff_of_false
        (not_sub_of_parts '-' 'W' (by decide) (by decide) hname) (by simp)
    · exact iff_of_true (sub_of_left _ (by decide)) ⟨rfl, rfl⟩
  · intro hname
    cases ws
    · exact iff_of_false
        (not_sub_of_parts '-' 'w' (by decide) (by decide) hname) (by simp)
    · exact iff_of_true (sub_of_left _ (by decide)) rfl
  · intro hname
    show ¬ yarnWsFlag <:+: "npm install --save-dev ".toList ++ name
    exact not_sub_of_parts '-' 'W' (by decide) (by decide) hname
  · intro hname
    show ¬ pnpmWsFlag <:+: "npm install --save-dev ".toList ++ name
    exact not_sub_of_parts '-' 'w' (by decide) (by decide) hname

/-- Witness for C1 at the dependency name the generator actually
installs, with workspace and classic detection both positive. -/
theorem spec_c1_installDevDependency_witness :
    ¬ yarnWsFlag <:+: "@playwright/test".toList ∧
    ¬ pnpmWsFlag <:+: "@playwright/test".toList ∧
    "@playwright/test".toList <:+: Yarn.installDevDependency true true "@playwright/test".toList ∧
    (yarnWsFlag <:+: Yarn.installDevDependency true true "@playwright/test".toList ↔
      true = true ∧ true = true) ∧
    (pnpmWsFlag <:+: PNPM.installDevDependency true "@playwright/test".toList ↔ true = true) ∧
    ¬ yarnWsFlag <:+: NPM.installDevDependency "@playwright/test".toList :=
  ⟨by decide, by decide,
   (spec_c1_installDevDependency true true "@playwright/test".toList).1.2.1,
   (spec_c1_installDevDependency true true "@playwright/test".toList).2.1 (by decide),
   (spec_c1_installDevDependency true true "@playwright/test".toList).2.2.1 (by decide),
   (spec_c1_installDevDependency true true "@playwright/test".toList).2.2.2.1 (by decide)⟩

/-- C5: in comment mode every line of a section (closed by an
end-marker line) is emitted with the disabling prefix inserted exactly
once, after the recorded indent length; and re-running the renderer
with an empty substitution table on any text whose lines carry no
markers returns it unchanged. -/
theorem spec_c5_comment_idempotence :
    (∀ (sections : List (List Char × SectionMode)) (ind : List Char)
       (L : List (List Char)) (endLine : List Char) (rest : List (List Char)),
      (∀ l ∈ L, matchBegin l = none ∧ isEndLine l = false) →
      matchBegin endLine = none → isEndLine endLine = true →
      execLines sections SectionMode.comment ind (L ++ endLine :: rest) =
        L.map (commentLine ind.length) ++
          execLines sections SectionMode.«show» ind rest) ∧
    (∀ (out : List Char) (sections : List (List Char × SectionMode)),
      (∀ l ∈ splitLines out, matchBegin l = none ∧ isEndLine l = false) →
      executeTemplate out [] sections = out) := by
  constructor
  · intro sections ind L endLine rest hL hb he
    exact execLines_comment_run L endLine rest hL hb he
  · intro out sections hout
    show joinLines (execLines sections SectionMode.«show» []
      (splitLines (applySubsts [] out))) = out
    rw [show applySubsts [] out = out from rfl]
    rw [execLines_id (splitLines out) hout]
    exact joinLines_splitLines out

/-- Witness for C5: a two-line comment section with a two-space indent,
and a no-op second pass on marker-free text. -/
theorem spec_c5_comment_idempotence_witness :
    execLines [] SectionMode.comment "  ".toList
        (["  foo".toList] ++ "  //--end-x".toList :: []) =
      ["  foo".toList].map (commentLine "  ".toList.length) ++
        execLines [] SectionMode.«show» "  ".toList [] ∧
    executeTemplate "hello\n  // world".toList [] [] = "hello\n  // world".toList :=
  ⟨spec_c5_comment_idempotence.1 [] "  ".toList ["  foo".toList] "  //--end-x".toList []
      (by decide) (by decide) (by decide),
   spec_c5_comment_idempotence.2 "hello\n  // world".toList [] (by decide)⟩

/-- C6: with an empty substitution table and a section table sending
every section name occurring in the input to `show`, `executeTemplate`
returns exactly the input with the marker lines removed and every other
line byte-identical. -/
theorem spec_c6_show_identity (input : List Char) (sections : List (List Char × SectionMode))
    (h : ∀ name ∈ beginNames (splitLines input), lookupMode sections name = SectionMode.«show») :
    executeTemplate input [] sections =
      joinLines ((splitLines input).filter (fun l => (matchBegin l).isNone && !isEndLine l)) := by
  show joinLines (execLines sections SectionMode.«show» []
    (splitLines (applySubsts [] input))) = _
  rw [show applySubsts [] input = input from rfl]
  rw [execLines_all_show (splitLines input) h []]

/-- Witness for C6 on a template with one section set to `show`. -/
theorem spec_c6_show_identity_witness :
    (∀ name ∈ beginNames (splitLines "a\n//--begin-chromium\nb\n//--end-chromium\nc".toList),
      lookupMode [("chromium".toList, SectionMode.«show»)] name = SectionMode.«show») ∧
    executeTemplate "a\n//--begin-chromium\nb\n//--end-chromium\nc".toList []
        [("chromium".toList, SectionMode.«show»)] =
      joinLines ((splitLines "a\n//--begin-chromium\nb\n//--end-chromium\nc".toList).filter
        (fun l => (matchBegin l).isNone && !isEndLine l)) :=
  ⟨by decide,
   spec_c6_show_identity "a\n//--begin-chromium\nb\n//--end-chromium\nc".toList
     [("chromium".toList, SectionMode.«show»)] (by decide)⟩

/-- C7: a begin-marker line whose section name is not a key of the
section table switches the renderer into `comment` mode (the fallback),
so an unmapped section is emitted commented out rather than shown or
dropped. -/
theorem spec_c7_unknown_section_fallback (sections : List (List Char × SectionMode))
    (mode : SectionMode) (ind line ind' name : List Char) (rest : List (List Char))
    (hm : matchBegin line = some (ind', name))
    (habs : ∀ kv ∈ sections, kv.1 ≠ name) :
    execLines sections mode ind (line :: rest) =
      execLines sections SectionMode.comment ind' rest := by
  rw [execLines_begin hm, lookupMode_not_mem sections name habs]

/-- Witness for C7: a `firefox` section under a table that only maps
`chromium`. -/
theorem spec_c7_unknown_section_fallback_witness :
    matchBegin "//--begin-firefox".toList = some ([], "firefox".toList) ∧
    execLines [("chromium".toList, SectionMode.«show»)] SectionMode.«show» []
        ("//--begin-firefox".toList :: ["x".toList]) =
      execLines [("chromium".toList, SectionMode.«show»)] SectionMode.comment [] ["x".toList] :=
  ⟨by decide,
   spec_c7_unknown_section_fallback [("chromium".toList, SectionMode.«show»)]
     SectionMode.«show» [] "//--begin-firefox".toList [] "firefox".toList ["x".toList]
     (by decide) (by decide)⟩

/-- C10: for every input, substitution table and section table, no line
of `executeTemplate`'s output matches the begin pattern or the end
pattern; a line matching either pattern is always dropped regardless of
the current mode, and an end marker always resets the mode to `show`
even when no matching begin marker preceded it. -/
theorem spec_c10_no_marker_lines :
    (∀ (input : List Char) (args : List (List Char × List Char))
       (sections : List (List Char × SectionMode)) (l : List Char),
      l ∈ splitLines (executeTemplate input args sections) →
      matchBegin l = none ∧ isEndLine l = false) ∧
    (∀ (sections : List (List Char × SectionMode)) (mode : SectionMode)
       (ind line ind' name : List Char) (rest : List (List Char)),
      matchBegin line = some (ind', name) →
      execLines sections mode ind (line :: rest) =
        execLines sections (lookupMode sections name) ind' rest) ∧
    (∀ (sections : List (List Char × SectionMode)) (mode : SectionMode)
       (ind line : List Char) (rest : List (List Char)),
      matchBegin line = none → isEndLine line = true →
      execLines sections mode ind (line :: rest) =
        execLines sections SectionMode.«show» ind rest) := by
  refine ⟨?_, ?_, ?_⟩
  · intro input args sections l hl
    have key : ∀ (L' : List (List Char)),
        (∀ x ∈ L', matchBegin x = none ∧ isEndLine x = false) →
        (∀ x ∈ L', '\n' ∉ x) →
        ∀ l', l' ∈ splitLines (joinLines L') →
          matchBegin l' = none ∧ isEndLine l' = false := by
      intro L' hprop hnn l' hl'
      cases L' with
      | nil =>
        rw [show joinLines ([] : List (List Char)) = [] from rfl] at hl'
        rw [show splitLines ([] : List Char) = [[]] from rfl] at hl'
        rcases List.mem_cons.mp hl' with rfl | hl'
        · exact ⟨by decide, by decide⟩
        · simp at hl'
      | cons l0 ls =>
        rw [splitLines_joinLines (l0 :: ls) (by simp) hnn] at hl'
        exact hprop l' hl'
    refine key (execLines sections SectionMode.«show» [] (splitLines (applySubsts args input)))
      (fun x hx => execLines_no_markers _ _ _ _ hx)
      (fun x hx => execLines_no_newline _ _ _ _ (splitLines_no_newline _) hx)
      l hl
  · intro sections mode ind line ind' name rest hm
    exact execLines_begin hm
  · intro sections mode ind line rest h1 h2
    exact execLines_end h1 h2

/-- Witness for C10: a concrete render, a begin-marker drop in `hide`
mode, and an end-marker reset from `hide` mode with no begin marker. -/
theorem spec_c10_no_marker_lines_witness :
    (matchBegin "a".toList = none ∧ isEndLine "a".toList = false) ∧
    execLines [] SectionMode.hide [] ("//--begin-s".toList :: []) =
      execLines [] (lookupMode [] "s".toList) [] [] ∧
    execLines [] SectionMode.hide [] ("//--end-s".toList :: []) =
      execLines [] SectionMode.«show» [] [] :=
  ⟨spec_c10_no_marker_lines.1 "a\n//--begin-s\nb".toList [] [] "a".toList (by decide),
   spec_c10_no_marker_lines.2.1 [] SectionMode.hide [] "//--begin-s".toList [] "s".toList []
     (by decide),
   spec_c10_no_marker_lines.2.2 [] SectionMode.hide [] "//--end-s".toList [] (by decide)
     (by decide)⟩

/-- C9: when both names of a derived mutually-exclusive boolean pair
are supplied on the command line (and `--help` is not), the CLI reports
the conflicting pairs and exits with code 1 before constructing the
`Generator` — the only branch that creates the target directory,
executes commands or writes files is never reached. -/
theorem spec_c9_conflict_exits (allOptions : List (List Char)) (argv : List (List Char))
    (pr : List Char × List Char) (hpr : pr ∈ booleanOptionPairs allOptions)
    (h1 : hasKey (parseOptions argv) pr.1 = true)
    (h2 : hasKey (parseOptions argv) pr.2 = true)
    (hh : hasKey (parseOptions argv) "help".toList = false) :
    (∃ both, cliMain allOptions argv = CliOutcome.conflictExit both ∧ both ≠ []) ∧
    exitCode (cliMain allOptions argv) = some 1 := by
  have hboth : pr ∈ (booleanOptionPairs allOptions).filter
      (fun q => hasKey (parseOptions argv) q.1 && hasKey (parseOptions argv) q.2) :=
    List.mem_filter.mpr ⟨hpr, by rw [h1, h2]; rfl⟩
  have hne : (booleanOptionPairs allOptions).filter
      (fun q => hasKey (parseOptions argv) q.1 && hasKey (parseOptions argv) q.2) ≠ [] :=
    List.ne_nil_of_mem hboth
  have hemp : ((booleanOptionPairs allOptions).filter
      (fun q => hasKey (parseOptions argv) q.1 && hasKey (parseOptions argv) q.2)).isEmpty
        = false := by
    cases hcase : ((booleanOptionPairs allOptions).filter
        (fun q => hasKey (parseOptions argv) q.1 && hasKey (parseOptions argv) q.2)).isEmpty with
    | true => exact absurd (List.isEmpty_iff.mp hcase) hne
    | false => rfl
  have hcm : cliMain allOptions argv = CliOutcome.conflictExit
      ((booleanOptionPairs allOptions).filter
        (fun q => hasKey (parseOptions argv) q.1 && hasKey (parseOptions argv) q.2)) := by
    simp only [cliMain]
    rw [hh, hemp]
    simp
  refine ⟨⟨_, hcm, hne⟩, ?_⟩
  rw [hcm]
  rfl

/-- Witness for C9 on the `--no-browsers` / `--browsers` pair. -/
theorem spec_c9_conflict_exits_witness :
    ("no-browsers".toList, "browsers".toList) ∈
      booleanOptionPairs ["--no-browsers".toList, "--browsers".toList] ∧
    hasKey (parseOptions ["--no-browsers".toList, "--browsers".toList])
      "no-browsers".toList = true ∧
    ((∃ both, cliMain ["--no-browsers".toList, "--browsers".toList]
        ["--no-browsers".toList, "--browsers".toList] = CliOutcome.conflictExit both ∧
        both ≠ []) ∧
      exitCode (cliMain ["--no-browsers".toList, "--browsers".toList]
        ["--no-browsers".toList, "--browsers".toList]) = some 1) :=
  ⟨by decide, by decide,
   spec_c9_conflict_exits ["--no-browsers".toList, "--browsers".toList]
     ["--no-browsers".toList, "--browsers".toList]
     ("no-browsers".toList, "browsers".toList) (by decide) (by decide) (by decide) (by decide)⟩
